import Mathlib

/-
Verification of the in-memory graph model and fixed-leaf pruning pass of
src/tools/fixedgraph.py.

Python values are embedded as follows.  The namedtuples Node and Edge become
structures with decidable equality (namedtuple equality is structural).  A
Python set of edges is embedded as a duplicate-free List Edge with
membership-checked insertion and removal; set.remove and list.remove raise on a
missing element, which the embedding models by returning Option (none is an
uncaught exception).  The two defaultdict(set) indices are embedded as total
functions from Node to List Edge whose default value is the empty list; this is
behaviorally equal to the defaultdict because the code never iterates over the
dictionary keys, so auto-inserted empty buckets are unobservable.  The nodes
dict (id to Node, insertion ordered, built with key node.id) is embedded as the
insertion-ordered list of its values.  The while loop of remove_fixed_leaves is
embedded with an explicit pass counter; the termination theorem shows that
nodes.length + 1 passes always reach the fixed point.
-/

set_option maxRecDepth 8000

/-- Embedding of the Node namedtuple of fixedgraph.py. -/
structure Node where
  id : String
  type : String
  name : String
  fixed : Bool
  synthesized : Bool
  color : String
  memcat : Int
deriving DecidableEq

/-- Embedding of the Edge namedtuple of fixedgraph.py; src and dst are Node
values (not ids), and name is Optional. -/
structure Edge where
  src : Node
  dst : Node
  name : Option String
deriving DecidableEq

/-- Embedding of the Graph object: the nodes dict (as its ordered value list),
the edges list, and the two defaultdict(set) adjacency indices as total
functions with default empty bucket. -/
structure Graph where
  nodes : List Node
  edges : List Edge
  forwardE : Node → List Edge
  reverseE : Node → List Edge

/-- Python set.add on an edge set embedded as a duplicate-free list. -/
def sadd (s : List Edge) (e : Edge) : List Edge :=
  if e ∈ s then s else s ++ [e]

/-- Dictionary assignment for a Node-keyed index. -/
def upd (f : Node → List Edge) (k : Node) (v : List Edge) : Node → List Edge :=
  fun m => if m = k then v else f m

/-- The index-building loop of Graph.__init__: for each edge, add it to the
bucket of key(edge), starting from all-empty buckets. -/
def buildIdx (key : Edge → Node) (edges : List Edge) : Node → List Edge :=
  edges.foldl (fun f e => upd f (key e) (sadd (f (key e)) e)) (fun _ => [])

/-- Embedding of Graph.__init__: store nodes and edges as given and build the
forward index keyed by src and the reverse index keyed by dst. -/
def Graph.init (nodes : List Node) (edges : List Edge) : Graph :=
  { nodes := nodes
    edges := edges
    forwardE := buildIdx Edge.src edges
    reverseE := buildIdx Edge.dst edges }

/-- Python set.remove and list.remove: delete the first occurrence, failing
(none) when the element is absent. -/
def remFirst (s : List Edge) (e : Edge) : Option (List Edge) :=
  if e ∈ s then some (s.erase e) else none

/-- One iteration of the first loop of Graph._remove_node_edges, for an edge of
the reverse bucket of the node being removed: delete it from the forward bucket
of its src, then from the reverse bucket of the node, then from the edges
list. -/
def remRevStep (n : Node) (g : Graph) (e : Edge) : Option Graph := do
  let fs ← remFirst (g.forwardE e.src) e
  let g1 : Graph := { g with forwardE := upd g.forwardE e.src fs }
  let rs ← remFirst (g1.reverseE n) e
  let g2 : Graph := { g1 with reverseE := upd g1.reverseE n rs }
  let es ← remFirst g2.edges e
  pure { g2 with edges := es }

/-- One iteration of the second loop of Graph._remove_node_edges, for an edge of
the forward bucket of the node being removed: delete it from the forward bucket
of the node, then from the reverse bucket of its dst, then from the edges
list. -/
def remFwdStep (n : Node) (g : Graph) (e : Edge) : Option Graph := do
  let fs ← remFirst (g.forwardE n) e
  let g1 : Graph := { g with forwardE := upd g.forwardE n fs }
  let rs ← remFirst (g1.reverseE e.dst) e
  let g2 : Graph := { g1 with reverseE := upd g1.reverseE e.dst rs }
  let es ← remFirst g2.edges e
  pure { g2 with edges := es }

/-- Embedding of Graph._remove_node_edges.  The first loop iterates over a
snapshot of the reverse bucket of the node, the assert checks that this bucket
is then empty, the second loop iterates over a snapshot (taken after the first
loop) of the forward bucket, and the final assert checks that it is empty.
A failing assert or a failing remove is none. -/
def removeNodeEdges (g : Graph) (n : Node) : Option Graph := do
  let g1 ← (g.reverseE n).foldlM (remRevStep n) g
  if g1.reverseE n = [] then do
    let g2 ← (g1.forwardE n).foldlM (remFwdStep n) g1
    if g2.forwardE n = [] then pure g2 else none
  else none

/-- Python del nodes[i] on the nodes dict: fail (KeyError) when no entry has
key i, else delete the entry with that key. -/
def delNode (nodes : List Node) (i : String) : Option (List Node) :=
  if nodes.any (fun m => m.id == i) then some (nodes.eraseP (fun m => m.id == i)) else none

/-- The removal operation of the pruning loop, lines 108-109 of fixedgraph.py:
self._remove_node_edges(node) followed by del self.nodes[node.id]. -/
def removeNode (g : Graph) (n : Node) : Option Graph := do
  let g1 ← removeNodeEdges g n
  let ns ← delNode g1.nodes n.id
  pure { g1 with nodes := ns }

/-- A sequence of calls to the removal operation, propagating any failure. -/
def removeSeq (g : Graph) : List Node → Option Graph
  | [] => some g
  | n :: rest => do
      let g1 ← removeNode g n
      removeSeq g1 rest

/-- The body of the per-node scan of remove_fixed_leaves: skip a non-fixed
node, skip a node having any forward edge whose name differs from "env", and
otherwise remove the node, its incident edges and its dict entry, and record
that this pass removed something. -/
def passStep (g : Graph) (r : Bool) (n : Node) : Option (Graph × Bool) :=
  if n.fixed = false then some (g, r)
  else if (g.forwardE n).any (fun e => decide (e.name ≠ some "env")) then some (g, r)
  else do
    let g1 ← removeNode g n
    pure (g1, true)

/-- One full pass of remove_fixed_leaves: scan a snapshot of the node list
taken at the start of the pass, threading the mutated graph and the
removed_any flag. -/
def onePass (g : Graph) : Option (Graph × Bool) :=
  g.nodes.foldlM (fun p n => passStep p.1 p.2 n) (g, false)

/-- The while loop of remove_fixed_leaves with an explicit bound on the number
of passes: stop after the first pass that removes nothing. -/
def loopPasses : Nat → Graph → Option Graph
  | 0, _ => none
  | f + 1, g => do
      let p ← onePass g
      if p.2 then loopPasses f p.1 else pure p.1

/-- Embedding of Graph.remove_fixed_leaves.  The pass bound nodes.length + 1
always suffices (proved below): every pass that removes anything strictly
shrinks the node list. -/
def remove_fixed_leaves (g : Graph) : Option Graph :=
  loopPasses (g.nodes.length + 1) g

/-- An edge record of the input document, before node resolution. -/
structure EdgeRec where
  src : String
  dst : String
  name : Option String
deriving DecidableEq

/-- Failure of graph construction.  The code raises a KeyError at the node-map
lookup nodes[edge_json[...]] in main; the specification names this condition
MalformedGraphError. -/
inductive BuildErr where
  | malformedGraph
deriving DecidableEq

/-- The node-map lookup nodes[i] of main, on the id-keyed node dict. -/
def lookupNode (nodes : List Node) (i : String) : Option Node :=
  nodes.find? (fun m => m.id == i)

/-- The edge-resolution loop of main: look up src and dst of each edge record
in the node map, failing on the first record whose id is absent. -/
def resolveEdges (nodes : List Node) : List EdgeRec → Except BuildErr (List Edge)
  | [] => Except.ok []
  | r :: rest =>
      match lookupNode nodes r.src, lookupNode nodes r.dst with
      | some s, some d =>
          match resolveEdges nodes rest with
          | Except.ok es => Except.ok ({ src := s, dst := d, name := r.name } :: es)
          | Except.error err => Except.error err
      | _, _ => Except.error BuildErr.malformedGraph

/-- Graph construction as performed by main: resolve the edge records against
the node map, then call Graph.__init__. -/
def buildGraph (nodes : List Node) (recs : List EdgeRec) : Except BuildErr Graph :=
  match resolveEdges nodes recs with
  | Except.ok es => Except.ok (Graph.init nodes es)
  | Except.error err => Except.error err

/-- Embedding of name.rsplit(at-sign, 1)[0] from generate_graphviz: the part of
the name before its last at-sign, or the whole name when it has none. -/
def rsplitBase (s : List Char) : List Char :=
  match s.reverse.dropWhile (fun c => decide (c ≠ '@')) with
  | [] => s
  | _ :: rest => rest.reverse

/-- The display name computed by generate_graphviz: rsplit at the last at-sign,
then cap at 100 characters with a trailing ellipsis when longer. -/
def renderedName (n : Node) : List Char :=
  let nm := rsplitBase n.name.data
  if nm.length > 100 then nm.take 100 ++ ['.', '.', '.'] else nm

/-- The per-node label of generate_graphviz, the format string
of the node call: open paren, type, close paren, space, display name, space,
open paren, memcat, close paren. -/
def nodeLabel (n : Node) : List Char :=
  ['('] ++ n.type.data ++ [')', ' '] ++ renderedName n ++ [' ', '('] ++ (toString n.memcat).data ++ [')']

/-- Invariant I1 of the specification: every edge of the edges collection
appears in exactly the forward bucket of its src and exactly the reverse
bucket of its dst. -/
def I1 (g : Graph) : Prop :=
  ∀ e ∈ g.edges, (∀ m, e ∈ g.forwardE m ↔ m = e.src) ∧ (∀ m, e ∈ g.reverseE m ↔ m = e.dst)

/-- Invariant I2 of the specification: every node referenced by an edge of the
edges collection is present in the node collection. -/
def I2 (g : Graph) : Prop :=
  ∀ e ∈ g.edges, e.src ∈ g.nodes ∧ e.dst ∈ g.nodes

/-- Invariant I3 of the specification: no edge held anywhere (either index)
references a node missing from the node collection, and every indexed edge is
a current edge. -/
def I3 (g : Graph) : Prop :=
  ∀ m e, (e ∈ g.forwardE m ∨ e ∈ g.reverseE m) → e ∈ g.edges ∧ e.src ∈ g.nodes ∧ e.dst ∈ g.nodes

/-- A sequence of successful removal-operation calls, each on a node currently
in the graph (a call on an absent node raises instead of removing). -/
inductive RemSeq : Graph → Graph → Prop
  | refl (g : Graph) : RemSeq g g
  | step (g : Graph) (n : Node) (g1 g2 : Graph) :
      n ∈ g.nodes → removeNode g n = some g1 → RemSeq g1 g2 → RemSeq g g2

/-- The structural well-formedness a graph enjoys on construction and keeps
under node removal: duplicate-free edge list and buckets, buckets keyed
correctly and contained in the edge list, edge list covered by both buckets,
edge endpoints present, and node ids unique. -/
structure GInv (g : Graph) : Prop where
  edgesNodup : g.edges.Nodup
  fwdNodup : ∀ m, (g.forwardE m).Nodup
  revNodup : ∀ m, (g.reverseE m).Nodup
  fwdSrc : ∀ m e, e ∈ g.forwardE m → e.src = m
  revDst : ∀ m e, e ∈ g.reverseE m → e.dst = m
  fwdEdges : ∀ m e, e ∈ g.forwardE m → e ∈ g.edges
  revEdges : ∀ m e, e ∈ g.reverseE m → e ∈ g.edges
  fwdMem : ∀ e ∈ g.edges, e ∈ g.forwardE e.src
  revMem : ∀ e ∈ g.edges, e ∈ g.reverseE e.dst
  srcNode : ∀ e ∈ g.edges, e.src ∈ g.nodes
  dstNode : ∀ e ∈ g.edges, e.dst ∈ g.nodes
  idsNodup : (g.nodes.map Node.id).Nodup

/-- Sample node builder for concrete instances. -/
def mkNode (i : String) (fx : Bool) : Node :=
  { id := i, type := "t", name := i, fixed := fx, synthesized := false, color := "white", memcat := 0 }

/-- Sample edge builder for concrete instances. -/
def mkEdge (a b : Node) (nm : Option String) : Edge :=
  { src := a, dst := b, name := nm }

/-- Concrete instances used by the claim witnesses and counterexamples. -/
def nA1 : Node := mkNode "a1" true

def nB1 : Node := mkNode "b1" true

def gW1 : Graph := Graph.init [nA1, nB1] [mkEdge nB1 nA1 (some "ref")]

def nA2 : Node := mkNode "a2" true

def nB2 : Node := mkNode "b2" false

def eDup : Edge := mkEdge nA2 nB2 (some "x")

def gDup : Graph := Graph.init [nA2, nB2] [eDup, eDup]

def gW2 : Graph := Graph.init [nA2, nB2] [eDup]

def gW3 : Graph :=
  Graph.init [mkNode "f3" true, mkNode "n3" false]
    [mkEdge (mkNode "n3" false) (mkNode "f3" true) (some "ref")]

def gW4 : Graph :=
  Graph.init [mkNode "f4" true, mkNode "n4" false]
    [mkEdge (mkNode "n4" false) (mkNode "f4" true) (some "ref")]

def gW5 : Graph :=
  Graph.init [mkNode "f5" true, mkNode "g5" true]
    [mkEdge (mkNode "f5" true) (mkNode "g5" true) (some "ref")]

def nodes6 : List Node := [mkNode "x6" true]

def recsBad6 : List EdgeRec := [{ src := "x6", dst := "missing", name := none }]

def recsOk6 : List EdgeRec := [{ src := "x6", dst := "x6", name := some "env" }]

def nA7 : Node := mkNode "a7" true

def gW7 : Graph := Graph.init [nA7] []

def nAbs7 : Node := mkNode "zz7" true

def cNode8 : Node :=
  { id := "c8", type := "t", name := "a@b@c", fixed := false, synthesized := false,
    color := "white", memcat := 0 }

def wNode8 : Node :=
  { id := "w8", type := "t", name := "abc@123", fixed := false, synthesized := false,
    color := "white", memcat := 0 }

def wNode8b : Node :=
  { id := "w8b", type := "t", name := "plain", fixed := false, synthesized := false,
    color := "white", memcat := 0 }

def wNode8c : Node :=
  { id := "w8c", type := "t", name := "aaaaaaaaaaaaaaaaaaaaaaaaaaaaaaaaaaaaaaaaaaaaaaaaaaaaaaaaaaaaaaaaaaaaaaaaaaaaaaaaaaaaaaaaaaaaaaaaaaaaaaaaaaaaaaaaaaaaaaaaaaaaaaaaaaaaaaaaaaaaaaaaaaaaaa", fixed := false, synthesized := false,
    color := "white", memcat := 0 }

def nC9 : Node := mkNode "c9" true

def nD9 : Node := mkNode "d9" false

def eC9 : Edge := mkEdge nC9 nD9 (some "y")

def nS10 : Node := mkNode "s10" true

def eLoop10 : Edge := mkEdge nS10 nS10 (some "self")

def gW10 : Graph := Graph.init [nS10] [eLoop10]

theorem upd_apply (f : Node → List Edge) (k : Node) (v : List Edge) (m : Node) :
    upd f k v m = if m = k then v else f m := rfl

theorem mem_sadd {s : List Edge} {e x : Edge} : x ∈ sadd s e ↔ x ∈ s ∨ x = e := by
  by_cases h : e ∈ s
  · simp only [sadd, if_pos h]
    constructor
    · exact Or.inl
    · rintro (hx | rfl)
      · exact hx
      · exact h
  · simp [sadd, h]

theorem nodup_sadd {s : List Edge} {e : Edge} (h : s.Nodup) : (sadd s e).Nodup := by
  by_cases he : e ∈ s
  · simpa [sadd, he] using h
  · rw [sadd, if_neg he]
    exact List.Nodup.append h (List.nodup_singleton e) (by simpa using he)

theorem mem_foldIdx (key : Edge → Node) (edges : List Edge) :
    ∀ (f : Node → List Edge) (m : Node) (x : Edge),
      x ∈ (edges.foldl (fun f2 e => upd f2 (key e) (sadd (f2 (key e)) e)) f) m ↔
        x ∈ f m ∨ (x ∈ edges ∧ key x = m) := by
  induction edges with
  | nil =>
      intro f m x
      simp
  | cons e rest ih =>
      intro f m x
      rw [List.foldl_cons, ih]
      constructor
      · rintro (hx | ⟨hx, hk⟩)
        · simp only [upd] at hx
          by_cases hm : m = key e
          · rw [if_pos hm] at hx
            rcases mem_sadd.mp hx with hx' | rfl
            · exact Or.inl (by rw [hm]; exact hx')
            · exact Or.inr ⟨List.mem_cons_self _ _, hm.symm⟩
          · rw [if_neg hm] at hx
            exact Or.inl hx
        · exact Or.inr ⟨List.mem_cons_of_mem _ hx, hk⟩
      · rintro (hx | ⟨hx, hk⟩)
        · simp only [upd]
          by_cases hm : m = key e
          · rw [if_pos hm]
            exact Or.inl (mem_sadd.mpr (Or.inl (by rw [← hm]; exact hx)))
          · rw [if_neg hm]
            exact Or.inl hx
        · rcases List.mem_cons.mp hx with rfl | hx'
          · simp only [upd]
            rw [if_pos hk.symm]
            exact Or.inl (mem_sadd.mpr (Or.inr rfl))
          · exact Or.inr ⟨hx', hk⟩

theorem nodup_foldIdx (key : Edge → Node) (edges : List Edge) :
    ∀ (f : Node → List Edge), (∀ m, (f m).Nodup) →
      ∀ m, ((edges.foldl (fun f2 e => upd f2 (key e) (sadd (f2 (key e)) e)) f) m).Nodup := by
  induction edges with
  | nil =>
      intro f hf m
      simpa using hf m
  | cons e rest ih =>
      intro f hf m
      rw [List.foldl_cons]
      refine ih _ (fun m2 => ?_) m
      simp only [upd]
      by_cases hm : m2 = key e
      · rw [if_pos hm]
        exact nodup_sadd (hf _)
      · rw [if_neg hm]
        exact hf m2

theorem mem_buildIdx {key : Edge → Node} {edges : List Edge} {m : Node} {x : Edge} :
    x ∈ buildIdx key edges m ↔ x ∈ edges ∧ key x = m := by
  have h := mem_foldIdx key edges (fun _ => []) m x
  simpa [buildIdx] using h

theorem nodup_buildIdx {key : Edge → Node} {edges : List Edge} {m : Node} :
    (buildIdx key edges m).Nodup :=
  nodup_foldIdx key edges _ (fun _ => List.nodup_nil) m

theorem init_nodes (ns : List Node) (es : List Edge) : (Graph.init ns es).nodes = ns := rfl

theorem init_edges (ns : List Node) (es : List Edge) : (Graph.init ns es).edges = es := rfl

theorem init_forwardE (ns : List Node) (es : List Edge) :
    (Graph.init ns es).forwardE = buildIdx Edge.src es := rfl

theorem init_reverseE (ns : List Node) (es : List Edge) :
    (Graph.init ns es).reverseE = buildIdx Edge.dst es := rfl

theorem GInv_init (nodes : List Node) (edges : List Edge)
    (h1 : edges.Nodup) (h2 : ∀ e ∈ edges, e.src ∈ nodes ∧ e.dst ∈ nodes)
    (h3 : (nodes.map Node.id).Nodup) : GInv (Graph.init nodes edges) where
  edgesNodup := h1
  fwdNodup := fun _ => nodup_buildIdx
  revNodup := fun _ => nodup_buildIdx
  fwdSrc := fun _ _ he => (mem_buildIdx.mp he).2
  revDst := fun _ _ he => (mem_buildIdx.mp he).2
  fwdEdges := fun _ _ he => (mem_buildIdx.mp he).1
  revEdges := fun _ _ he => (mem_buildIdx.mp he).1
  fwdMem := fun _ he => mem_buildIdx.mpr ⟨he, rfl⟩
  revMem := fun _ he => mem_buildIdx.mpr ⟨he, rfl⟩
  srcNode := fun e he => (h2 e he).1
  dstNode := fun e he => (h2 e he).2
  idsNodup := h3

theorem erase_filter_cons {l : List Edge} {e : Edge} {r : List Edge} (h : l.Nodup) :
    (l.erase e).filter (fun x => decide (x ∉ r)) = l.filter (fun x => decide (x ∉ e :: r)) := by
  rw [List.Nodup.erase_eq_filter h e, List.filter_filter]
  apply List.filter_congr
  intro x hx
  by_cases h1 : x = e <;> by_cases h2 : x ∈ r <;> simp [h1, h2]

theorem remRevStep_eq (n : Node) (g : Graph) (e : Edge)
    (h1 : e ∈ g.forwardE e.src) (h2 : e ∈ g.reverseE n) (h3 : e ∈ g.edges) :
    remRevStep n g e = some
      { nodes := g.nodes
        edges := g.edges.erase e
        forwardE := upd g.forwardE e.src ((g.forwardE e.src).erase e)
        reverseE := upd g.reverseE n ((g.reverseE n).erase e) } := by
  simp [remRevStep, remFirst, h1, h2, h3]

theorem remFwdStep_eq (n : Node) (g : Graph) (e : Edge)
    (h1 : e ∈ g.forwardE n) (h2 : e ∈ g.reverseE e.dst) (h3 : e ∈ g.edges) :
    remFwdStep n g e = some
      { nodes := g.nodes
        edges := g.edges.erase e
        forwardE := upd g.forwardE n ((g.forwardE n).erase e)
        reverseE := upd g.reverseE e.dst ((g.reverseE e.dst).erase e) } := by
  simp [remFwdStep, remFirst, h1, h2, h3]

theorem revLoop_spec (n : Node) (rev : List Edge) :
    ∀ (g : Graph),
      rev.Nodup →
      (∀ e ∈ rev, e ∈ g.edges ∧ e ∈ g.forwardE e.src ∧ e ∈ g.reverseE n) →
      (∀ m x, x ∈ g.forwardE m → x.src = m) →
      (∀ m, (g.forwardE m).Nodup) →
      (∀ m, (g.reverseE m).Nodup) →
      g.edges.Nodup →
      ∃ g1, rev.foldlM (remRevStep n) g = some g1 ∧
        g1.nodes = g.nodes ∧
        g1.edges = g.edges.filter (fun x => decide (x ∉ rev)) ∧
        (∀ m, g1.forwardE m = (g.forwardE m).filter (fun x => decide (x ∉ rev))) ∧
        (∀ m, m ≠ n → g1.reverseE m = g.reverseE m) ∧
        g1.reverseE n = (g.reverseE n).filter (fun x => decide (x ∉ rev)) := by
  induction rev with
  | nil =>
      intro g _ _ _ _ _ _
      refine ⟨g, by simp, rfl, ?_, fun m => ?_, fun m _ => rfl, ?_⟩ <;> simp
  | cons e rest ih =>
      intro g hnd hmem hsrc hfnd hrnd hend
      obtain ⟨he_edges, he_fwd, he_rev⟩ := hmem e (List.mem_cons_self e rest)
      have hne : e ∉ rest := (List.nodup_cons.mp hnd).1
      set g3 : Graph :=
        { nodes := g.nodes
          edges := g.edges.erase e
          forwardE := upd g.forwardE e.src ((g.forwardE e.src).erase e)
          reverseE := upd g.reverseE n ((g.reverseE n).erase e) } with hg3
      have hstep : remRevStep n g e = some g3 := remRevStep_eq n g e he_fwd he_rev he_edges
      have hmem' : ∀ e' ∈ rest, e' ∈ g3.edges ∧ e' ∈ g3.forwardE e'.src ∧ e' ∈ g3.reverseE n := by
        intro e' he'
        have hee : e' ≠ e := fun h => hne (h ▸ he')
        obtain ⟨a, b, c⟩ := hmem e' (List.mem_cons_of_mem e he')
        refine ⟨(List.mem_erase_of_ne hee).mpr a, ?_, ?_⟩
        · show e' ∈ upd g.forwardE e.src ((g.forwardE e.src).erase e) e'.src
          simp only [upd]
          by_cases hs : e'.src = e.src
          · rw [if_pos hs]
            exact (List.mem_erase_of_ne hee).mpr (hs ▸ b)
          · rw [if_neg hs]
            exact b
        · show e' ∈ upd g.reverseE n ((g.reverseE n).erase e) n
          simp only [upd, if_pos]
          exact (List.mem_erase_of_ne hee).mpr c
      have hsrc' : ∀ m x, x ∈ g3.forwardE m → x.src = m := by
        intro m x hx
        simp only [hg3, upd] at hx
        by_cases hs : m = e.src
        · rw [if_pos hs] at hx
          rw [hsrc e.src x (List.mem_of_mem_erase hx)]
          exact hs.symm
        · rw [if_neg hs] at hx
          exact hsrc m x hx
      have hfnd' : ∀ m, (g3.forwardE m).Nodup := by
        intro m
        simp only [hg3, upd]
        by_cases hs : m = e.src
        · rw [if_pos hs]
          exact (hfnd e.src).erase e
        · rw [if_neg hs]
          exact hfnd m
      have hrnd' : ∀ m, (g3.reverseE m).Nodup := by
        intro m
        simp only [hg3, upd]
        by_cases hs : m = n
        · rw [if_pos hs]
          exact (hrnd n).erase e
        · rw [if_neg hs]
          exact hrnd m
      have hend' : g3.edges.Nodup := hend.erase e
      obtain ⟨g1, hfold, hn1, he1, hf1, hr1, hrn1⟩ :=
        ih g3 (List.nodup_cons.mp hnd).2 hmem' hsrc' hfnd' hrnd' hend'
      refine ⟨g1, ?_, ?_, ?_, fun m => ?_, fun m hm => ?_, ?_⟩
      · rw [List.foldlM_cons, hstep]
        simpa using hfold
      · rw [hn1]
      · rw [he1]
        show (g.edges.erase e).filter _ = _
        exact erase_filter_cons hend
      · rw [hf1 m]
        by_cases hs : m = e.src
        · show ((upd g.forwardE e.src ((g.forwardE e.src).erase e)) m).filter _ = _
          rw [upd_apply, if_pos hs, hs]
          exact erase_filter_cons (hfnd e.src)
        · show ((upd g.forwardE e.src ((g.forwardE e.src).erase e)) m).filter _ = _
          simp only [upd, if_neg hs]
          apply List.filter_congr
          intro x hx
          have hxe : x ≠ e := by
            intro hxe
            exact hs (by rw [← hsrc m x hx, hxe])
          simp [List.mem_cons, hxe]
      · rw [hr1 m hm]
        show (upd g.reverseE n ((g.reverseE n).erase e)) m = _
        simp only [upd, if_neg hm]
      · rw [hrn1]
        show ((upd g.reverseE n ((g.reverseE n).erase e)) n).filter _ = _
        simp only [upd, if_pos]
        exact erase_filter_cons (hrnd n)

theorem fwdLoop_spec (n : Node) (fwd : List Edge) :
    ∀ (g : Graph),
      fwd.Nodup →
      (∀ e ∈ fwd, e ∈ g.edges ∧ e ∈ g.reverseE e.dst ∧ e ∈ g.forwardE n) →
      (∀ m x, x ∈ g.reverseE m → x.dst = m) →
      (∀ m, (g.forwardE m).Nodup) →
      (∀ m, (g.reverseE m).Nodup) →
      g.edges.Nodup →
      ∃ g1, fwd.foldlM (remFwdStep n) g = some g1 ∧
        g1.nodes = g.nodes ∧
        g1.edges = g.edges.filter (fun x => decide (x ∉ fwd)) ∧
        (∀ m, g1.reverseE m = (g.reverseE m).filter (fun x => decide (x ∉ fwd))) ∧
        (∀ m, m ≠ n → g1.forwardE m = g.forwardE m) ∧
        g1.forwardE n = (g.forwardE n).filter (fun x => decide (x ∉ fwd)) := by
  induction fwd with
  | nil =>
      intro g _ _ _ _ _ _
      refine ⟨g, by simp, rfl, ?_, fun m => ?_, fun m _ => rfl, ?_⟩ <;> simp
  | cons e rest ih =>
      intro g hnd hmem hdst hfnd hrnd hend
      obtain ⟨he_edges, he_rev, he_fwd⟩ := hmem e (List.mem_cons_self e rest)
      have hne : e ∉ rest := (List.nodup_cons.mp hnd).1
      set g3 : Graph :=
        { nodes := g.nodes
          edges := g.edges.erase e
          forwardE := upd g.forwardE n ((g.forwardE n).erase e)
          reverseE := upd g.reverseE e.dst ((g.reverseE e.dst).erase e) } with hg3
      have hstep : remFwdStep n g e = some g3 := remFwdStep_eq n g e he_fwd he_rev he_edges
      have hmem' : ∀ e' ∈ rest, e' ∈ g3.edges ∧ e' ∈ g3.reverseE e'.dst ∧ e' ∈ g3.forwardE n := by
        intro e' he'
        have hee : e' ≠ e := fun h => hne (h ▸ he')
        obtain ⟨a, b, c⟩ := hmem e' (List.mem_cons_of_mem e he')
        refine ⟨(List.mem_erase_of_ne hee).mpr a, ?_, ?_⟩
        · show e' ∈ upd g.reverseE e.dst ((g.reverseE e.dst).erase e) e'.dst
          simp only [upd]
          by_cases hs : e'.dst = e.dst
          · rw [if_pos hs]
            exact (List.mem_erase_of_ne hee).mpr (hs ▸ b)
          · rw [if_neg hs]
            exact b
        · show e' ∈ upd g.forwardE n ((g.forwardE n).erase e) n
          simp only [upd, if_pos]
          exact (List.mem_erase_of_ne hee).mpr c
      have hdst' : ∀ m x, x ∈ g3.reverseE m → x.dst = m := by
        intro m x hx
        simp only [hg3, upd] at hx
        by_cases hs : m = e.dst
        · rw [if_pos hs] at hx
          rw [hdst e.dst x (List.mem_of_mem_erase hx)]
          exact hs.symm
        · rw [if_neg hs] at hx
          exact hdst m x hx
      have hfnd' : ∀ m, (g3.forwardE m).Nodup := by
        intro m
        simp only [hg3, upd]
        by_cases hs : m = n
        · rw [if_pos hs]
          exact (hfnd n).erase e
        · rw [if_neg hs]
          exact hfnd m
      have hrnd' : ∀ m, (g3.reverseE m).Nodup := by
        intro m
        simp only [hg3, upd]
        by_cases hs : m = e.dst
        · rw [if_pos hs]
          exact (hrnd e.dst).erase e
        · rw [if_neg hs]
          exact hrnd m
      have hend' : g3.edges.Nodup := hend.erase e
      obtain ⟨g1, hfold, hn1, he1, hr1, hf1, hfn1⟩ :=
        ih g3 (List.nodup_cons.mp hnd).2 hmem' hdst' hfnd' hrnd' hend'
      refine ⟨g1, ?_, ?_, ?_, fun m => ?_, fun m hm => ?_, ?_⟩
      · rw [List.foldlM_cons, hstep]
        simpa using hfold
      · rw [hn1]
      · rw [he1]
        show (g.edges.erase e).filter _ = _
        exact erase_filter_cons hend
      · rw [hr1 m]
        by_cases hs : m = e.dst
        · show ((upd g.reverseE e.dst ((g.reverseE e.dst).erase e)) m).filter _ = _
          rw [upd_apply, if_pos hs, hs]
          exact erase_filter_cons (hrnd e.dst)
        · show ((upd g.reverseE e.dst ((g.reverseE e.dst).erase e)) m).filter _ = _
          simp only [upd, if_neg hs]
          apply List.filter_congr
          intro x hx
          have hxe : x ≠ e := by
            intro hxe
            exact hs (by rw [← hdst m x hx, hxe])
          simp [List.mem_cons, hxe]
      · rw [hf1 m hm]
        show (upd g.forwardE n ((g.forwardE n).erase e)) m = _
        simp only [upd, if_neg hm]
      · rw [hfn1]
        show ((upd g.forwardE n ((g.forwardE n).erase e)) n).filter _ = _
        simp only [upd, if_pos]
        exact erase_filter_cons (hfnd n)

theorem filter_not_mem_self {l : List Edge} : l.filter (fun x => decide (x ∉ l)) = [] :=
  List.filter_eq_nil_iff.mpr (fun a ha => by simp [ha])

theorem removeNodeEdges_spec (g : Graph) (n : Node) (hInv : GInv g) :
    ∃ g2, removeNodeEdges g n = some g2 ∧
      g2.nodes = g.nodes ∧
      g2.edges = g.edges.filter (fun x => decide (¬(x.src = n ∨ x.dst = n))) ∧
      (∀ m, g2.forwardE m =
        if m = n then [] else (g.forwardE m).filter (fun x => decide (x.dst ≠ n))) ∧
      (∀ m, g2.reverseE m =
        if m = n then [] else (g.reverseE m).filter (fun x => decide (x.src ≠ n))) := by
  have hrev_iff : ∀ x, x ∈ g.edges → (x ∈ g.reverseE n ↔ x.dst = n) := by
    intro x hx
    exact ⟨fun h => hInv.revDst n x h, fun h => h ▸ hInv.revMem x hx⟩
  obtain ⟨g1, hfold1, hn1, he1, hf1, hr1, hrn1⟩ :=
    revLoop_spec n (g.reverseE n) g (hInv.revNodup n)
      (fun e he => ⟨hInv.revEdges n e he, hInv.fwdMem e (hInv.revEdges n e he), he⟩)
      hInv.fwdSrc hInv.fwdNodup hInv.revNodup hInv.edgesNodup
  have hempty1 : g1.reverseE n = [] := by
    rw [hrn1]
    exact filter_not_mem_self
  have hfwd_eq : g1.forwardE n = (g.forwardE n).filter (fun x => decide (x ∉ g.reverseE n)) :=
    hf1 n
  have hfwd_iff : ∀ x, x ∈ g.edges → (x ∈ g1.forwardE n ↔ x.src = n ∧ x.dst ≠ n) := by
    intro x hx
    rw [hfwd_eq, List.mem_filter]
    constructor
    · rintro ⟨hm, hd⟩
      refine ⟨hInv.fwdSrc n x hm, ?_⟩
      intro hdst
      rw [decide_eq_true_iff] at hd
      exact hd ((hrev_iff x hx).mpr hdst)
    · rintro ⟨hs, hd⟩
      refine ⟨hs ▸ hInv.fwdMem x hx, ?_⟩
      rw [decide_eq_true_iff]
      intro hmem
      exact hd ((hrev_iff x hx).mp hmem)
  have hmem2 : ∀ e ∈ g1.forwardE n, e ∈ g1.edges ∧ e ∈ g1.reverseE e.dst ∧ e ∈ g1.forwardE n := by
    intro e he
    have he' := he
    rw [hfwd_eq, List.mem_filter] at he'
    obtain ⟨hef, hdec⟩ := he'
    have hee : e ∈ g.edges := hInv.fwdEdges n e hef
    have hdn : e.dst ≠ n := ((hfwd_iff e hee).mp he).2
    refine ⟨?_, ?_, he⟩
    · rw [he1, List.mem_filter]
      exact ⟨hee, hdec⟩
    · rw [hr1 e.dst hdn]
      exact hInv.revMem e hee
  have hdst1 : ∀ m x, x ∈ g1.reverseE m → x.dst = m := by
    intro m x hx
    by_cases hm : m = n
    · rw [hm, hempty1] at hx
      exact absurd hx (List.not_mem_nil x)
    · rw [hr1 m hm] at hx
      exact hInv.revDst m x hx
  have hfnd1 : ∀ m, (g1.forwardE m).Nodup := by
    intro m
    rw [hf1 m]
    exact (hInv.fwdNodup m).filter _
  have hrnd1 : ∀ m, (g1.reverseE m).Nodup := by
    intro m
    by_cases hm : m = n
    · rw [hm, hempty1]
      exact List.nodup_nil
    · rw [hr1 m hm]
      exact hInv.revNodup m
  have hend1 : g1.edges.Nodup := by
    rw [he1]
    exact hInv.edgesNodup.filter _
  obtain ⟨g2, hfold2, hn2, he2, hr2, hf2, hfn2⟩ :=
    fwdLoop_spec n (g1.forwardE n) g1 (hfnd1 n) hmem2 hdst1 hfnd1 hrnd1 hend1
  have hempty2 : g2.forwardE n = [] := by
    rw [hfn2]
    exact filter_not_mem_self
  refine ⟨g2, ?_, ?_, ?_, ?_, ?_⟩
  · simp [removeNodeEdges, hfold1, hempty1, hfold2, hempty2]
  · rw [hn2, hn1]
  · rw [he2, he1, List.filter_filter]
    apply List.filter_congr
    intro x hx
    have h1 : (x ∉ g1.forwardE n) ↔ ¬(x.src = n ∧ x.dst ≠ n) := not_congr (hfwd_iff x hx)
    have h2 : (x ∉ g.reverseE n) ↔ x.dst ≠ n := not_congr (hrev_iff x hx)
    calc (decide (x ∉ g1.forwardE n) && decide (x ∉ g.reverseE n))
        = decide ((x ∉ g1.forwardE n) ∧ (x ∉ g.reverseE n)) := (Bool.decide_and _ _).symm
      _ = decide (¬(x.src = n ∨ x.dst = n)) := decide_eq_decide.mpr (by rw [h1, h2]; tauto)
  · intro m
    by_cases hm : m = n
    · rw [if_pos hm, hm, hempty2]
    · rw [if_neg hm, hf2 m hm, hf1 m]
      apply List.filter_congr
      intro x hx
      have hxe : x ∈ g.edges := hInv.fwdEdges m x hx
      exact decide_eq_decide.mpr (not_congr (hrev_iff x hxe))
  · intro m
    by_cases hm : m = n
    · rw [if_pos hm, hm, hr2 n, hempty1, List.filter_nil]
    · rw [if_neg hm, hr2 m, hr1 m hm]
      apply List.filter_congr
      intro x hx
      have hxd : x.dst = m := hInv.revDst m x hx
      have hxe : x ∈ g.edges := hInv.revEdges m x hx
      refine decide_eq_decide.mpr (not_congr ?_)
      rw [hfwd_iff x hxe]
      constructor
      · rintro ⟨hs, _⟩
        exact hs
      · intro hs
        exact ⟨hs, by rw [hxd]; exact hm⟩

theorem mem_eraseP_of_not {l : List Node} {x : Node} {p : Node → Bool}
    (hx : x ∈ l) (hp : p x = false) : x ∈ l.eraseP p := by
  induction l with
  | nil => cases hx
  | cons a l ih =>
      rcases List.mem_cons.mp hx with rfl | hxl
      · simp [List.eraseP_cons, hp]
      · cases hpa : p a <;> simp [List.eraseP_cons, hpa]
        · exact Or.inr (ih hxl)
        · exact hxl

theorem eraseP_id_absent {l : List Node} {i : String} (h : (l.map Node.id).Nodup) :
    ∀ m ∈ l.eraseP (fun x => x.id == i), m.id ≠ i := by
  induction l with
  | nil =>
      intro m hm
      simp [List.eraseP_nil] at hm
  | cons a l ih =>
      rw [List.map_cons, List.nodup_cons] at h
      obtain ⟨ha, hl⟩ := h
      intro m hm
      cases hpa : (a.id == i) with
      | true =>
          simp only [List.eraseP_cons, hpa, cond_true] at hm
          have haid : a.id = i := by simpa using hpa
          intro hmi
          have hmem : m.id ∈ l.map Node.id := List.mem_map_of_mem Node.id hm
          rw [hmi, ← haid] at hmem
          exact ha hmem
      | false =>
          simp only [List.eraseP_cons, hpa, cond_false] at hm
          rcases List.mem_cons.mp hm with rfl | hm'
          · simpa using hpa
          · exact ih hl m hm'

theorem ids_inj {l : List Node} (h : (l.map Node.id).Nodup) {a b : Node}
    (ha : a ∈ l) (hb : b ∈ l) (hid : a.id = b.id) : a = b :=
  List.inj_on_of_nodup_map h ha hb hid

theorem removeNode_spec (g : Graph) (n : Node) (hInv : GInv g) (hn : n ∈ g.nodes) :
    ∃ g', removeNode g n = some g' ∧
      g'.nodes = g.nodes.eraseP (fun m => m.id == n.id) ∧
      g'.edges = g.edges.filter (fun x => decide (¬(x.src = n ∨ x.dst = n))) ∧
      (∀ m, g'.forwardE m =
        if m = n then [] else (g.forwardE m).filter (fun x => decide (x.dst ≠ n))) ∧
      (∀ m, g'.reverseE m =
        if m = n then [] else (g.reverseE m).filter (fun x => decide (x.src ≠ n))) := by
  obtain ⟨g2, h2, hn2, he2, hf2, hr2⟩ := removeNodeEdges_spec g n hInv
  have hdel : delNode g2.nodes n.id = some (g2.nodes.eraseP (fun m => m.id == n.id)) := by
    rw [delNode, if_pos]
    exact List.any_eq_true.mpr ⟨n, hn2 ▸ hn, by simp⟩
  refine ⟨{ g2 with nodes := g2.nodes.eraseP (fun m => m.id == n.id) }, ?_, ?_, ?_, ?_, ?_⟩
  · simp [removeNode, h2, hdel]
  · show g2.nodes.eraseP _ = _
    rw [hn2]
  · exact he2
  · exact hf2
  · exact hr2

theorem GInv_removeNode (g : Graph) (n : Node) (hInv : GInv g) (hn : n ∈ g.nodes)
    {g' : Graph} (h : removeNode g n = some g') : GInv g' := by
  obtain ⟨gs, hs, hnodes, hedges, hfwd, hrev⟩ := removeNode_spec g n hInv hn
  have : gs = g' := Option.some.inj (hs.symm.trans h)
  subst this
  have edge_mem : ∀ e, e ∈ gs.edges → e ∈ g.edges ∧ e.src ≠ n ∧ e.dst ≠ n := by
    intro e he
    rw [hedges, List.mem_filter] at he
    obtain ⟨hee, hp⟩ := he
    rw [decide_eq_true_iff] at hp
    push_neg at hp
    exact ⟨hee, hp⟩
  refine ⟨?_, ?_, ?_, ?_, ?_, ?_, ?_, ?_, ?_, ?_, ?_, ?_⟩
  · rw [hedges]
    exact hInv.edgesNodup.filter _
  · intro m
    rw [hfwd m]
    by_cases hm : m = n
    · rw [if_pos hm]
      exact List.nodup_nil
    · rw [if_neg hm]
      exact (hInv.fwdNodup m).filter _
  · intro m
    rw [hrev m]
    by_cases hm : m = n
    · rw [if_pos hm]
      exact List.nodup_nil
    · rw [if_neg hm]
      exact (hInv.revNodup m).filter _
  · intro m e he
    rw [hfwd m] at he
    by_cases hm : m = n
    · rw [if_pos hm] at he
      cases he
    · rw [if_neg hm] at he
      exact hInv.fwdSrc m e (List.mem_filter.mp he).1
  · intro m e he
    rw [hrev m] at he
    by_cases hm : m = n
    · rw [if_pos hm] at he
      cases he
    · rw [if_neg hm] at he
      exact hInv.revDst m e (List.mem_filter.mp he).1
  · intro m e he
    rw [hfwd m] at he
    by_cases hm : m = n
    · rw [if_pos hm] at he
      cases he
    · rw [if_neg hm, List.mem_filter] at he
      obtain ⟨hb, hd⟩ := he
      rw [decide_eq_true_iff] at hd
      rw [hedges, List.mem_filter]
      refine ⟨hInv.fwdEdges m e hb, ?_⟩
      rw [decide_eq_true_iff]
      push_neg
      exact ⟨by rw [hInv.fwdSrc m e hb]; exact hm, hd⟩
  · intro m e he
    rw [hrev m] at he
    by_cases hm : m = n
    · rw [if_pos hm] at he
      cases he
    · rw [if_neg hm, List.mem_filter] at he
      obtain ⟨hb, hd⟩ := he
      rw [decide_eq_true_iff] at hd
      rw [hedges, List.mem_filter]
      refine ⟨hInv.revEdges m e hb, ?_⟩
      rw [decide_eq_true_iff]
      push_neg
      exact ⟨hd, by rw [hInv.revDst m e hb]; exact hm⟩
  · intro e he
    obtain ⟨hee, hsrc, hdst⟩ := edge_mem e he
    rw [hfwd e.src, if_neg hsrc, List.mem_filter]
    exact ⟨hInv.fwdMem e hee, by simpa using hdst⟩
  · intro e he
    obtain ⟨hee, hsrc, hdst⟩ := edge_mem e he
    rw [hrev e.dst, if_neg hdst, List.mem_filter]
    exact ⟨hInv.revMem e hee, by simpa using hsrc⟩
  · intro e he
    obtain ⟨hee, hsrc, hdst⟩ := edge_mem e he
    rw [hnodes]
    apply mem_eraseP_of_not (hInv.srcNode e hee)
    simp only [beq_eq_false_iff_ne, ne_eq]
    intro hid
    exact hsrc (ids_inj hInv.idsNodup (hInv.srcNode e hee) hn hid)
  · intro e he
    obtain ⟨hee, hsrc, hdst⟩ := edge_mem e he
    rw [hnodes]
    apply mem_eraseP_of_not (hInv.dstNode e hee)
    simp only [beq_eq_false_iff_ne, ne_eq]
    intro hid
    exact hdst (ids_inj hInv.idsNodup (hInv.dstNode e hee) hn hid)
  · rw [hnodes]
    exact ((List.eraseP_sublist g.nodes).map Node.id).nodup hInv.idsNodup

theorem foldlM_nodes {step : Graph → Edge → Option Graph}
    (hstep : ∀ g e g', step g e = some g' → g'.nodes = g.nodes) :
    ∀ (l : List Edge) (g g' : Graph), l.foldlM step g = some g' → g'.nodes = g.nodes := by
  intro l
  induction l with
  | nil =>
      intro g g' h
      simp only [List.foldlM_nil, Option.pure_def] at h
      rw [Option.some.inj h]
  | cons e rest ih =>
      intro g g' h
      rw [List.foldlM_cons] at h
      simp only [Option.bind_eq_bind, Option.bind_eq_some] at h
      obtain ⟨g1, hg1, h⟩ := h
      rw [ih g1 g' h, hstep g e g1 hg1]

theorem remRevStep_nodes {n : Node} {g : Graph} {e : Edge} {g' : Graph}
    (h : remRevStep n g e = some g') : g'.nodes = g.nodes := by
  simp only [remRevStep, Option.bind_eq_bind, Option.pure_def, Option.bind_eq_some] at h
  obtain ⟨fs, _, rs, _, es, _, h⟩ := h
  rw [← Option.some.inj h]

theorem remFwdStep_nodes {n : Node} {g : Graph} {e : Edge} {g' : Graph}
    (h : remFwdStep n g e = some g') : g'.nodes = g.nodes := by
  simp only [remFwdStep, Option.bind_eq_bind, Option.pure_def, Option.bind_eq_some] at h
  obtain ⟨fs, _, rs, _, es, _, h⟩ := h
  rw [← Option.some.inj h]

theorem removeNodeEdges_nodes {g : Graph} {n : Node} {g1 : Graph}
    (h : removeNodeEdges g n = some g1) : g1.nodes = g.nodes := by
  simp only [removeNodeEdges, Option.bind_eq_bind, Option.pure_def, Option.bind_eq_some] at h
  obtain ⟨ga, hga, h⟩ := h
  split at h
  · simp only [Option.bind_eq_bind, Option.pure_def, Option.bind_eq_some] at h
    obtain ⟨gb, hgb, h⟩ := h
    split at h
    · rw [← Option.some.inj h,
        foldlM_nodes (fun g e g' => remFwdStep_nodes) _ ga gb hgb,
        foldlM_nodes (fun g e g' => remRevStep_nodes) _ g ga hga]
    · cases h
  · cases h

theorem delNode_length {l : List Node} {i : String} {l' : List Node}
    (h : delNode l i = some l') : l'.length < l.length := by
  rw [delNode] at h
  split at h
  · rename_i hany
    obtain ⟨a, ha, hpa⟩ := List.any_eq_true.mp hany
    rw [← Option.some.inj h, List.length_eraseP_of_mem ha hpa]
    exact Nat.sub_lt (List.length_pos.mpr (List.ne_nil_of_mem ha)) Nat.one_pos
  · cases h

theorem removeNode_length {g : Graph} {n : Node} {g' : Graph}
    (h : removeNode g n = some g') : g'.nodes.length < g.nodes.length := by
  simp only [removeNode, Option.bind_eq_bind, Option.pure_def, Option.bind_eq_some] at h
  obtain ⟨g1, hg1, ns, hns, h⟩ := h
  have h1 : g'.nodes = ns := by rw [← Option.some.inj h]
  rw [h1, ← removeNodeEdges_nodes hg1]
  exact delNode_length hns

theorem passStep_not_removable {g : Graph} {r : Bool} {n : Node}
    (h : ¬(n.fixed = true ∧ ∀ e ∈ g.forwardE n, e.name = some "env")) :
    passStep g r n = some (g, r) := by
  rw [passStep]
  by_cases hf : n.fixed = false
  · rw [if_pos hf]
  · rw [if_neg hf, if_pos]
    have hfx : n.fixed = true := by
      cases hb : n.fixed
      · exact absurd hb hf
      · rfl
    have : ¬∀ e ∈ g.forwardE n, e.name = some "env" := fun hall => h ⟨hfx, hall⟩
    push_neg at this
    obtain ⟨e, he, hne⟩ := this
    exact List.any_eq_true.mpr ⟨e, he, by simpa using hne⟩

theorem passStep_removable {g : Graph} {r : Bool} {n : Node}
    (h : n.fixed = true ∧ ∀ e ∈ g.forwardE n, e.name = some "env") :
    passStep g r n = (removeNode g n).bind (fun g1 => some (g1, true)) := by
  rw [passStep, if_neg (by simp [h.1]), if_neg]
  · rfl
  · rw [List.any_eq_true]
    rintro ⟨e, he, hne⟩
    rw [decide_eq_true_iff] at hne
    exact hne (h.2 e he)

theorem passStep_cases {g : Graph} {r : Bool} {n : Node} {p : Graph × Bool}
    (h : passStep g r n = some p) :
    p = (g, r) ∨ (removeNode g n = some p.1 ∧ p.2 = true ∧ n.fixed = true) := by
  rw [passStep] at h
  split at h
  · exact Or.inl (Option.some.inj h).symm
  · split at h
    · exact Or.inl (Option.some.inj h).symm
    · simp only [Option.bind_eq_bind, Option.pure_def, Option.bind_eq_some] at h
      obtain ⟨g1, hg1, h⟩ := h
      rename_i hfix _
      refine Or.inr ⟨?_, ?_, ?_⟩
      · rw [← Option.some.inj h]
        exact hg1
      · rw [← Option.some.inj h]
      · cases hb : n.fixed
        · exact absurd hb hfix
        · rfl

theorem passStep_false {g : Graph} {r : Bool} {n : Node} {g1 : Graph}
    (h : passStep g r n = some (g1, false)) :
    g1 = g ∧ r = false ∧ ¬(n.fixed = true ∧ ∀ e ∈ g.forwardE n, e.name = some "env") := by
  rw [passStep] at h
  split at h
  · rename_i hf
    have h' := Option.some.inj h
    rw [Prod.mk.injEq] at h'
    refine ⟨h'.1.symm, h'.2, ?_⟩
    rintro ⟨hfx, -⟩
    rw [hfx] at hf
    cases hf
  · split at h
    · rename_i hany
      have h' := Option.some.inj h
      rw [Prod.mk.injEq] at h'
      refine ⟨h'.1.symm, h'.2, ?_⟩
      rintro ⟨-, hall⟩
      obtain ⟨e, he, hne⟩ := List.any_eq_true.mp hany
      rw [decide_eq_true_iff] at hne
      exact hne (hall e he)
    · simp only [Option.bind_eq_bind, Option.pure_def, Option.bind_eq_some] at h
      obtain ⟨g2, -, h⟩ := h
      exact absurd (congrArg Prod.snd (Option.some.inj h)) (by simp)

theorem passFold_false (l : List Node) :
    ∀ (g : Graph) (r : Bool) (g' : Graph),
      l.foldlM (fun q k => passStep q.1 q.2 k) (g, r) = some (g', false) →
      g' = g ∧ r = false ∧
        ∀ k ∈ l, ¬(k.fixed = true ∧ ∀ e ∈ g.forwardE k, e.name = some "env") := by
  induction l with
  | nil =>
      intro g r g' h
      simp only [List.foldlM_nil, Option.pure_def] at h
      have h' := Option.some.inj h
      rw [Prod.mk.injEq] at h'
      refine ⟨h'.1.symm, h'.2, by simp⟩
  | cons k rest ih =>
      intro g r g' h
      rw [List.foldlM_cons] at h
      simp only [Option.bind_eq_bind, Option.bind_eq_some] at h
      obtain ⟨p, hp, h⟩ := h
      obtain ⟨g1, r1⟩ := p
      obtain ⟨hg', hr1, hrest⟩ := ih g1 r1 g' h
      subst hr1
      obtain ⟨hg1, hr, hcond⟩ := passStep_false hp
      subst hg1
      refine ⟨hg', hr, ?_⟩
      intro k' hk'
      rcases List.mem_cons.mp hk' with rfl | hk''
      · exact hcond
      · exact hrest k' hk''

theorem passFold_length (l : List Node) :
    ∀ (g : Graph) (r : Bool) (p : Graph × Bool),
      l.foldlM (fun q k => passStep q.1 q.2 k) (g, r) = some p →
      p.1.nodes.length ≤ g.nodes.length ∧
        (p.2 = true → r = true ∨ p.1.nodes.length < g.nodes.length) := by
  induction l with
  | nil =>
      intro g r p h
      simp only [List.foldlM_nil, Option.pure_def] at h
      rw [← Option.some.inj h]
      exact ⟨Nat.le_refl _, fun ht => Or.inl ht⟩
  | cons k rest ih =>
      intro g r p h
      rw [List.foldlM_cons] at h
      simp only [Option.bind_eq_bind, Option.bind_eq_some] at h
      obtain ⟨q, hq, h⟩ := h
      obtain ⟨g1, r1⟩ := q
      rcases passStep_cases hq with heq | ⟨hrem, hr1, -⟩
      · rw [Prod.mk.injEq] at heq
        rw [heq.1, heq.2] at h
        exact ih _ _ p h
      · simp only at hrem hr1
        subst hr1
        have hlt := removeNode_length hrem
        obtain ⟨hle, -⟩ := ih g1 true p h
        exact ⟨Nat.le_trans hle (Nat.le_of_lt hlt), fun _ => Or.inr (Nat.lt_of_le_of_lt hle hlt)⟩

theorem eraseP_filter_fixed {l : List Node} {k : Node}
    (hids : (l.map Node.id).Nodup) (hk : k ∈ l) (hf : k.fixed = true) :
    (l.eraseP (fun m => m.id == k.id)).filter (fun m => !m.fixed) =
      l.filter (fun m => !m.fixed) := by
  induction l with
  | nil => cases hk
  | cons a l ih =>
      rw [List.map_cons, List.nodup_cons] at hids
      obtain ⟨ha, hl⟩ := hids
      by_cases hpa : a.id = k.id
      · have hak : a = k := by
          rcases List.mem_cons.mp hk with rfl | hkl
          · rfl
          · exact absurd (hpa ▸ List.mem_map_of_mem Node.id hkl) ha
        rw [List.eraseP_cons]
        simp only [hpa, beq_self_eq_true, cond_true]
        rw [List.filter_cons]
        simp [hak, hf]
      · have hka : k ∈ l := by
          rcases List.mem_cons.mp hk with rfl | hkl
          · exact absurd rfl hpa
          · exact hkl
        rw [List.eraseP_cons]
        have hbeq : (a.id == k.id) = false := by simpa using hpa
        rw [hbeq]
        simp only [cond_false]
        rw [List.filter_cons, List.filter_cons, ih hl hka]

theorem passFold_spec (l : List Node) :
    ∀ (g : Graph) (r : Bool),
      GInv g → l.Nodup → (∀ k ∈ l, k ∈ g.nodes) →
      ∃ p, l.foldlM (fun q k => passStep q.1 q.2 k) (g, r) = some p ∧ GInv p.1 ∧
        p.1.nodes.filter (fun m => !m.fixed) = g.nodes.filter (fun m => !m.fixed) := by
  induction l with
  | nil =>
      intro g r hInv _ _
      exact ⟨(g, r), by simp, hInv, rfl⟩
  | cons k rest ih =>
      intro g r hInv hnd hmem
      have hk : k ∈ g.nodes := hmem k (List.mem_cons_self k rest)
      by_cases hcond : k.fixed = true ∧ ∀ e ∈ g.forwardE k, e.name = some "env"
      · obtain ⟨g1, hg1, hnodes1, he1, hf1, hr1⟩ := removeNode_spec g k hInv hk
        have hstep : passStep g r k = some (g1, true) := by
          rw [passStep_removable hcond, hg1]
          rfl
        have hInv1 : GInv g1 := GInv_removeNode g k hInv hk hg1
        have hmem1 : ∀ k' ∈ rest, k' ∈ g1.nodes := by
          intro k' hk'
          have hk'g : k' ∈ g.nodes := hmem k' (List.mem_cons_of_mem k hk')
          have hne : k' ≠ k := fun h => (List.nodup_cons.mp hnd).1 (h ▸ hk')
          rw [hnodes1]
          apply mem_eraseP_of_not hk'g
          simp only [beq_eq_false_iff_ne, ne_eq]
          intro hid
          exact hne (ids_inj hInv.idsNodup hk'g hk hid)
        obtain ⟨p, hfold, hInvp, hfilter⟩ := ih g1 true hInv1 (List.nodup_cons.mp hnd).2 hmem1
        refine ⟨p, ?_, hInvp, ?_⟩
        · rw [List.foldlM_cons, hstep]
          simpa using hfold
        · rw [hfilter, hnodes1]
          exact eraseP_filter_fixed hInv.idsNodup hk hcond.1
      · have hstep : passStep g r k = some (g, r) := passStep_not_removable hcond
        obtain ⟨p, hfold, hInvp, hfilter⟩ := ih g r hInv (List.nodup_cons.mp hnd).2
          (fun k' hk' => hmem k' (List.mem_cons_of_mem k hk'))
        refine ⟨p, ?_, hInvp, hfilter⟩
        rw [List.foldlM_cons, hstep]
        simpa using hfold

theorem onePass_spec (g : Graph) (hInv : GInv g) :
    ∃ g' b, onePass g = some (g', b) ∧ GInv g' ∧
      g'.nodes.length ≤ g.nodes.length ∧
      (b = true → g'.nodes.length < g.nodes.length) ∧
      (b = false → g' = g) ∧
      g'.nodes.filter (fun m => !m.fixed) = g.nodes.filter (fun m => !m.fixed) := by
  have hnd : g.nodes.Nodup := List.Nodup.of_map Node.id hInv.idsNodup
  obtain ⟨p, hfold, hInvp, hfilter⟩ := passFold_spec g.nodes g false hInv hnd (fun k hk => hk)
  obtain ⟨g', b⟩ := p
  obtain ⟨hle, hlt⟩ := passFold_length g.nodes g false (g', b) hfold
  refine ⟨g', b, hfold, hInvp, hle, ?_, ?_, hfilter⟩
  · intro ht
    rcases hlt ht with hcontra | h
    · cases hcontra
    · exact h
  · intro hf
    subst hf
    exact (passFold_false g.nodes g false g' hfold).1

theorem loopPasses_spec (f : Nat) :
    ∀ g : Graph, GInv g → g.nodes.length < f →
      ∃ g', loopPasses f g = some g' ∧ GInv g' ∧ onePass g' = some (g', false) ∧
        g'.nodes.filter (fun m => !m.fixed) = g.nodes.filter (fun m => !m.fixed) := by
  induction f with
  | zero =>
      intro g _ h
      exact absurd h (Nat.not_lt_zero _)
  | succ f ih =>
      intro g hInv hlen
      obtain ⟨g1, b, hpass, hInv1, hle, hlt, hfalse, hfilter⟩ := onePass_spec g hInv
      cases b with
      | false =>
          have hg1 : g1 = g := hfalse rfl
          refine ⟨g1, ?_, hInv1, ?_, hfilter⟩
          · simp [loopPasses, hpass]
          · rw [hg1] at hpass ⊢
            exact hpass
      | true =>
          have hlt1 : g1.nodes.length < f :=
            Nat.lt_of_lt_of_le (hlt rfl) (Nat.le_of_lt_succ hlen)
          obtain ⟨g', hloop, hInv', hfix, hfilter'⟩ := ih g1 hInv1 hlt1
          refine ⟨g', ?_, hInv', hfix, hfilter'.trans hfilter⟩
          simp [loopPasses, hpass, hloop]

theorem remove_fixed_leaves_spec (g : Graph) (hInv : GInv g) :
    ∃ g', remove_fixed_leaves g = some g' ∧ GInv g' ∧ onePass g' = some (g', false) ∧
      g'.nodes.filter (fun m => !m.fixed) = g.nodes.filter (fun m => !m.fixed) :=
  loopPasses_spec (g.nodes.length + 1) g hInv (Nat.lt_succ_self _)

theorem loopPasses_last (f : Nat) :
    ∀ g g' : Graph, loopPasses f g = some g' → onePass g' = some (g', false) := by
  induction f with
  | zero =>
      intro g g' h
      simp [loopPasses] at h
  | succ f ih =>
      intro g g' h
      simp only [loopPasses, Option.bind_eq_bind, Option.pure_def, Option.bind_eq_some] at h
      obtain ⟨p, hp, h⟩ := h
      obtain ⟨g1, b⟩ := p
      cases b with
      | true => exact ih g1 g' (by simpa using h)
      | false =>
          have hg1 : g1 = g' := by simpa using h
          subst hg1
          have hff := passFold_false g.nodes g false g1 hp
          rw [hff.1] at hp ⊢
          exact hp

theorem loopPasses_of_fixedpoint {g' : Graph} (h : onePass g' = some (g', false)) (f : Nat) :
    loopPasses (f + 1) g' = some g' := by
  simp [loopPasses, h]

theorem removeNode_absent (g : Graph) (n : Node) (hInv : GInv g)
    (habs : ∀ m ∈ g.nodes, m.id ≠ n.id) :
    removeNodeEdges g n = some g ∧ removeNode g n = none := by
  have hrev : g.reverseE n = [] := by
    apply List.eq_nil_iff_forall_not_mem.mpr
    intro e he
    have hdst := hInv.revDst n e he
    have hmem := hInv.dstNode e (hInv.revEdges n e he)
    rw [hdst] at hmem
    exact habs n hmem rfl
  have hfwd : g.forwardE n = [] := by
    apply List.eq_nil_iff_forall_not_mem.mpr
    intro e he
    have hsrc := hInv.fwdSrc n e he
    have hmem := hInv.srcNode e (hInv.fwdEdges n e he)
    rw [hsrc] at hmem
    exact habs n hmem rfl
  have hedges : removeNodeEdges g n = some g := by
    simp [removeNodeEdges, hrev, hfwd]
  have hdel : delNode g.nodes n.id = none := by
    rw [delNode, if_neg]
    intro hany
    obtain ⟨a, ha, hpa⟩ := List.any_eq_true.mp hany
    exact habs a ha (by simpa using hpa)
  exact ⟨hedges, by simp [removeNode, hedges, hdel]⟩

theorem removeNode_makes_absent (g : Graph) (n : Node) (hInv : GInv g) (hn : n ∈ g.nodes)
    {g' : Graph} (h : removeNode g n = some g') : ∀ m ∈ g'.nodes, m.id ≠ n.id := by
  obtain ⟨gs, hs, hnodes, -, -, -⟩ := removeNode_spec g n hInv hn
  have hgs : gs = g' := Option.some.inj (hs.symm.trans h)
  subst hgs
  rw [hnodes]
  exact eraseP_id_absent hInv.idsNodup

theorem lookupNode_eq_none {nodes : List Node} {i : String} :
    lookupNode nodes i = none ↔ i ∉ nodes.map Node.id := by
  rw [lookupNode, List.find?_eq_none]
  constructor
  · intro h hmem
    obtain ⟨m, hm, hid⟩ := List.mem_map.mp hmem
    exact h m hm (by simpa using hid)
  · intro h m hm hbeq
    exact h (List.mem_map.mpr ⟨m, hm, by simpa using hbeq⟩)

theorem resolveEdges_err (nodes : List Node) (recs : List EdgeRec)
    (h : ∃ r ∈ recs, r.src ∉ nodes.map Node.id ∨ r.dst ∉ nodes.map Node.id) :
    resolveEdges nodes recs = Except.error BuildErr.malformedGraph := by
  induction recs with
  | nil =>
      obtain ⟨r, hr, -⟩ := h
      cases hr
  | cons r0 rest ih =>
      obtain ⟨r, hr, hbad⟩ := h
      rw [resolveEdges]
      rcases List.mem_cons.mp hr with rfl | hr'
      · rcases hbad with hbad | hbad
        · rw [lookupNode_eq_none.mpr hbad]
        · rw [lookupNode_eq_none.mpr hbad]
          cases lookupNode nodes r.src <;> rfl
      · cases hs : lookupNode nodes r0.src with
        | none => rfl
        | some s =>
            cases hd : lookupNode nodes r0.dst with
            | none => rfl
            | some d =>
                rw [ih ⟨r, hr', hbad⟩]

theorem resolveEdges_ok (nodes : List Node) (recs : List EdgeRec)
    (h : ∀ r ∈ recs, r.src ∈ nodes.map Node.id ∧ r.dst ∈ nodes.map Node.id) :
    ∃ es, resolveEdges nodes recs = Except.ok es := by
  induction recs with
  | nil => exact ⟨[], rfl⟩
  | cons r0 rest ih =>
      obtain ⟨h1, h2⟩ := h r0 (List.mem_cons_self r0 rest)
      obtain ⟨es, hes⟩ := ih (fun r hr => h r (List.mem_cons_of_mem r0 hr))
      cases hs : lookupNode nodes r0.src with
      | none => exact absurd (lookupNode_eq_none.mp hs) (by simpa using h1)
      | some s =>
          cases hd : lookupNode nodes r0.dst with
          | none => exact absurd (lookupNode_eq_none.mp hd) (by simpa using h2)
          | some d =>
              refine ⟨{ src := s, dst := d, name := r0.name } :: es, ?_⟩
              rw [resolveEdges, hs, hd, hes]

theorem dropWhile_all_nil {p : Char → Bool} {l : List Char} (h : ∀ a ∈ l, p a = true) :
    l.dropWhile p = [] := by
  induction l with
  | nil => rfl
  | cons a l ih =>
      rw [List.dropWhile_cons, if_pos (h a (List.mem_cons_self a l))]
      exact ih (fun b hb => h b (List.mem_cons_of_mem a hb))

theorem dropWhile_append_all {p : Char → Bool} {l1 l2 : List Char}
    (h : ∀ a ∈ l1, p a = true) :
    (l1 ++ l2).dropWhile p = l2.dropWhile p := by
  induction l1 with
  | nil => rfl
  | cons a l ih =>
      rw [List.cons_append, List.dropWhile_cons, if_pos (h a (List.mem_cons_self a l))]
      exact ih (fun b hb => h b (List.mem_cons_of_mem a hb))

theorem rsplitBase_no_at {s : List Char} (h : '@' ∉ s) : rsplitBase s = s := by
  rw [rsplitBase]
  have hall : ∀ a ∈ s.reverse, (decide (a ≠ '@')) = true := by
    intro a ha
    rw [decide_eq_true_iff]
    exact fun hae => h (hae ▸ List.mem_reverse.mp ha)
  rw [dropWhile_all_nil hall]

theorem rsplitBase_last {t u : List Char} (h : '@' ∉ u) :
    rsplitBase (t ++ '@' :: u) = t := by
  rw [rsplitBase]
  have hrev : (t ++ '@' :: u).reverse = u.reverse ++ '@' :: t.reverse := by
    rw [List.reverse_append, List.reverse_cons]
    simp
  rw [hrev]
  have hall : ∀ a ∈ u.reverse, (decide (a ≠ '@')) = true := by
    intro a ha
    rw [decide_eq_true_iff]
    exact fun hae => h (hae ▸ List.mem_reverse.mp ha)
  rw [dropWhile_append_all hall, List.dropWhile_cons, if_neg (by simp)]
  exact List.reverse_reverse t

theorem GInv_remSeq {g g' : Graph} (h0 : GInv g) (hseq : RemSeq g g') : GInv g' := by
  induction hseq with
  | refl g => exact h0
  | step g n g1 g2 hn hrem _ ih => exact ih (GInv_removeNode g n h0 hn hrem)

theorem GInv_implies_I (g : Graph) (hInv : GInv g) : I1 g ∧ I2 g ∧ I3 g := by
  refine ⟨?_, ?_, ?_⟩
  · intro e he
    constructor
    · intro m
      constructor
      · intro hm
        exact (hInv.fwdSrc m e hm).symm
      · rintro rfl
        exact hInv.fwdMem e he
    · intro m
      constructor
      · intro hm
        exact (hInv.revDst m e hm).symm
      · rintro rfl
        exact hInv.revMem e he
  · intro e he
    exact ⟨hInv.srcNode e he, hInv.dstNode e he⟩
  · intro m e hme
    rcases hme with hf | hr
    · have he := hInv.fwdEdges m e hf
      exact ⟨he, hInv.srcNode e he, hInv.dstNode e he⟩
    · have he := hInv.revEdges m e hr
      exact ⟨he, hInv.srcNode e he, hInv.dstNode e he⟩

/-- C1: during a pass of remove_fixed_leaves, a node is removed at the moment
it is examined exactly when it is fixed and every forward edge of it (in the
graph state at that moment) is named "env"; a fixed node with no forward edges
is removed, and a node failing the condition is retained with the scan state
unchanged. -/
theorem c1_removal_condition (g : Graph) (r : Bool) (n : Node)
    (hInv : GInv g) (hn : n ∈ g.nodes) :
    ((n.fixed = true ∧ ∀ e ∈ g.forwardE n, e.name = some "env") →
      ∃ g', passStep g r n = some (g', true) ∧ ∀ m ∈ g'.nodes, m.id ≠ n.id) ∧
    (¬(n.fixed = true ∧ ∀ e ∈ g.forwardE n, e.name = some "env") →
      passStep g r n = some (g, r)) := by
  constructor
  · intro hcond
    obtain ⟨g', hg', -, -, -, -⟩ := removeNode_spec g n hInv hn
    refine ⟨g', ?_, removeNode_makes_absent g n hInv hn hg'⟩
    rw [passStep_removable hcond, hg']
    rfl
  · exact passStep_not_removable

/-- Witness for C1: in a two-node graph, the fixed node with no forward edges
is removed by its scan step, and the fixed node with a forward edge named
"ref" is retained. -/
theorem c1_removal_condition_witness :
    (passStep gW1 false nA1).isSome = true ∧ passStep gW1 false nB1 = some (gW1, false) := by
  constructor
  · obtain ⟨g', hg', -⟩ := (c1_removal_condition gW1 false nA1
      (GInv_init _ _ (by decide) (by decide) (by decide)) (by decide)).1 ⟨rfl, by decide⟩
    rw [hg']
    rfl
  · exact (c1_removal_condition gW1 false nB1
      (GInv_init _ _ (by decide) (by decide) (by decide)) (by decide)).2 (by decide)

/-- Counterexample to C2 as stated: the constructor accepts a duplicated edge
(the indices deduplicate it but the edges list keeps both copies), and after
the removal of its source node the removal sequence succeeds while one
dangling copy of the edge stays in the edges collection although its source
node is gone, violating I1, I2 and I3. -/
theorem c2_invariants_counterexample :
    (removeSeq gDup [nA2]).map
      (fun g' => (decide (eDup ∈ g'.edges), decide (eDup.src ∈ g'.nodes),
        decide (eDup ∈ g'.forwardE eDup.src))) = some (true, false, false) := by
  rfl

/-- C2 (amended): for a graph built by the constructor from a duplicate-free
edge list whose edges reference nodes of the id-unique node map, invariants
I1, I2 and I3 hold after any sequence of removal-operation calls on present
nodes. -/
theorem c2_invariants_amended (nodes : List Node) (edges : List Edge) (g' : Graph)
    (h1 : edges.Nodup)
    (h2 : ∀ e ∈ edges, e.src ∈ nodes ∧ e.dst ∈ nodes)
    (h3 : (nodes.map Node.id).Nodup)
    (hseq : RemSeq (Graph.init nodes edges) g') :
    I1 g' ∧ I2 g' ∧ I3 g' :=
  GInv_implies_I g' (GInv_remSeq (GInv_init nodes edges h1 h2 h3) hseq)

/-- Witness for C2 (amended): the invariants hold after one genuine removal
from a concrete duplicate-free graph. -/
theorem c2_invariants_amended_witness :
    I1 ((removeNode gW2 nA2).get (by rfl)) ∧
    I2 ((removeNode gW2 nA2).get (by rfl)) ∧
    I3 ((removeNode gW2 nA2).get (by rfl)) :=
  c2_invariants_amended [nA2, nB2] [eDup] _ (by decide) (by decide) (by decide)
    (RemSeq.step _ nA2 _ _ (by decide) (Option.some_get (by rfl)).symm (RemSeq.refl _))

/-- C3: remove_fixed_leaves never removes a non-fixed node; the list of
non-fixed nodes after pruning equals the list of non-fixed nodes before. -/
theorem c3_nonfixed_preserved (g : Graph) (hInv : GInv g) :
    ∃ g', remove_fixed_leaves g = some g' ∧
      g'.nodes.filter (fun m => !m.fixed) = g.nodes.filter (fun m => !m.fixed) := by
  obtain ⟨g', hrun, -, -, hfilter⟩ := remove_fixed_leaves_spec g hInv
  exact ⟨g', hrun, hfilter⟩

/-- Witness for C3 on a concrete graph with one fixed and one non-fixed
node. -/
theorem c3_nonfixed_preserved_witness :
    (remove_fixed_leaves gW3).map (fun g2 => g2.nodes.filter (fun m => !m.fixed)) =
      some (gW3.nodes.filter (fun m => !m.fixed)) := by
  obtain ⟨g', hrun, hfilter⟩ :=
    c3_nonfixed_preserved gW3 (GInv_init _ _ (by decide) (by decide) (by decide))
  rw [hrun]
  simp [hfilter]

/-- C4: pruning is idempotent: a second call of remove_fixed_leaves removes
nothing and returns the same graph, and after the first call no remaining
fixed node is a removable leaf (each has a forward edge not named "env"). -/
theorem c4_idempotent (g g' : Graph) (h : remove_fixed_leaves g = some g') :
    remove_fixed_leaves g' = some g' ∧
    ∀ n ∈ g'.nodes, n.fixed = true → ∃ e ∈ g'.forwardE n, e.name ≠ some "env" := by
  have hfix : onePass g' = some (g', false) := loopPasses_last _ g g' h
  constructor
  · show loopPasses (g'.nodes.length + 1) g' = some g'
    exact loopPasses_of_fixedpoint hfix _
  · intro n hn hf
    have hall := (passFold_false g'.nodes g' false g' hfix).2.2 n hn
    have hnot : ¬∀ e ∈ g'.forwardE n, e.name = some "env" := fun hy => hall ⟨hf, hy⟩
    push_neg at hnot
    exact hnot

/-- Witness for C4: rerunning the pruning on the concrete pruned graph
reproduces it unchanged. -/
theorem c4_idempotent_witness :
    remove_fixed_leaves ((remove_fixed_leaves gW4).get (by rfl)) =
      some ((remove_fixed_leaves gW4).get (by rfl)) :=
  (c4_idempotent gW4 _ (Option.some_get (by rfl)).symm).1

/-- C5: remove_fixed_leaves terminates: the bounded loop succeeds within
nodes.length + 1 passes, every pass that removes at least one node strictly
shrinks the node list, and the loop stops right after the first pass that
removes nothing. -/
theorem c5_terminates (g : Graph) (hInv : GInv g) :
    (∃ g', remove_fixed_leaves g = some g') ∧
    (∀ ga gb : Graph, onePass ga = some (gb, true) → gb.nodes.length < ga.nodes.length) ∧
    (∀ (ga gb : Graph) (f : Nat), onePass ga = some (gb, false) →
      loopPasses (f + 1) ga = some gb) := by
  refine ⟨?_, ?_, ?_⟩
  · obtain ⟨g', hrun, -, -, -⟩ := remove_fixed_leaves_spec g hInv
    exact ⟨g', hrun⟩
  · intro ga gb hp
    obtain ⟨-, hlt⟩ := passFold_length ga.nodes ga false (gb, true) hp
    rcases hlt rfl with hc | hlt'
    · cases hc
    · exact hlt'
  · intro ga gb f hp
    simp [loopPasses, hp]

/-- Witness for C5 on a concrete two-node graph of fixed nodes. -/
theorem c5_terminates_witness : (remove_fixed_leaves gW5).isSome = true := by
  obtain ⟨g', hrun⟩ :=
    (c5_terminates gW5 (GInv_init _ _ (by decide) (by decide) (by decide))).1
  rw [hrun]
  rfl

/-- C6: graph construction (main resolving edge records against the node map,
then the constructor) fails, with the failure the specification names
MalformedGraphError, exactly when some edge record references an id absent
from the node map; when every referenced id is present it succeeds and builds
both adjacency indices. -/
theorem c6_construction (nodes : List Node) (recs : List EdgeRec) :
    ((∃ r ∈ recs, r.src ∉ nodes.map Node.id ∨ r.dst ∉ nodes.map Node.id) →
      buildGraph nodes recs = Except.error BuildErr.malformedGraph) ∧
    ((∀ r ∈ recs, r.src ∈ nodes.map Node.id ∧ r.dst ∈ nodes.map Node.id) →
      ∃ es, buildGraph nodes recs = Except.ok (Graph.init nodes es) ∧
        ∀ m x, (x ∈ (Graph.init nodes es).forwardE m ↔ x ∈ es ∧ x.src = m) ∧
               (x ∈ (Graph.init nodes es).reverseE m ↔ x ∈ es ∧ x.dst = m)) := by
  constructor
  · intro h
    rw [buildGraph, resolveEdges_err nodes recs h]
  · intro h
    obtain ⟨es, hes⟩ := resolveEdges_ok nodes recs h
    refine ⟨es, ?_, ?_⟩
    · rw [buildGraph, hes]
    · intro m x
      exact ⟨mem_buildIdx, mem_buildIdx⟩

/-- Witness for C6: a record naming a missing id makes construction fail, and
a well-referenced record list makes it succeed. -/
theorem c6_construction_witness :
    buildGraph nodes6 recsBad6 = Except.error BuildErr.malformedGraph ∧
    buildGraph nodes6 recsOk6 ≠ Except.error BuildErr.malformedGraph := by
  constructor
  · exact (c6_construction nodes6 recsBad6).1 ⟨{ src := "x6", dst := "missing", name := none },
      by decide, by decide⟩
  · obtain ⟨es, hes, -⟩ := (c6_construction nodes6 recsOk6).2 (by decide)
    rw [hes]
    intro hc
    cases hc

/-- C7: the removal operation on a node absent from the graph raises the
error the specification names NotFoundError (the KeyError of del on the node
dict) and leaves the graph unchanged (its edge phase is an identity), and a
second removal of an already-removed node likewise fails without corrupting
the graph. -/
theorem c7_removal_errors (g : Graph) (n : Node) (hInv : GInv g) :
    ((∀ m ∈ g.nodes, m.id ≠ n.id) → removeNode g n = none ∧ removeNodeEdges g n = some g) ∧
    (n ∈ g.nodes → ∀ g', removeNode g n = some g' →
      removeSeq g [n, n] = none ∧ removeNode g' n = none ∧ removeNodeEdges g' n = some g') := by
  constructor
  · intro habs
    obtain ⟨hedges, hnone⟩ := removeNode_absent g n hInv habs
    exact ⟨hnone, hedges⟩
  · intro hn g' hrem
    have hInv' := GInv_removeNode g n hInv hn hrem
    have habs' := removeNode_makes_absent g n hInv hn hrem
    obtain ⟨hedges', hnone'⟩ := removeNode_absent g' n hInv' habs'
    refine ⟨?_, hnone', hedges'⟩
    simp [removeSeq, hrem, hnone']

/-- Witness for C7: removing a node that was never present fails, and the
double-removal sequence on a present node fails at its second step. -/
theorem c7_removal_errors_witness :
    removeNode gW7 nAbs7 = none ∧ removeSeq gW7 [nA7, nA7] = none := by
  constructor
  · exact ((c7_removal_errors gW7 nAbs7
      (GInv_init _ _ (by decide) (by decide) (by decide))).1 (by decide)).1
  · exact ((c7_removal_errors gW7 nA7
      (GInv_init _ _ (by decide) (by decide) (by decide))).2 (by decide) _
      (Option.some_get (by rfl)).symm).1

/-- Counterexample to C8 as stated: for the node named a-at-b-at-c the claim
predicts the label with the name truncated at the FIRST at-sign, namely
"(t) a (0)", but the code rsplits at the LAST at-sign and renders
"(t) a-at-b (0)" (with at-signs), so the rendered label differs from the
claimed one. -/
theorem c8_label_counterexample : nodeLabel cNode8 ≠ "(t) a (0)".data := by
  decide

/-- C8 (amended): the rendered label is "({type}) {name2} ({memcat})" where
name2 is the node name truncated at the LAST at-sign (the whole name when it
has none) and then capped to 100 characters with a trailing ellipsis when
longer than 100. -/
theorem c8_label_amended :
    (∀ (n : Node) (t u : List Char), n.name.data = t ++ '@' :: u → '@' ∉ u →
      nodeLabel n = ['('] ++ n.type.data ++ [')', ' '] ++
        (if t.length > 100 then t.take 100 ++ ['.', '.', '.'] else t) ++
        [' ', '('] ++ (toString n.memcat).data ++ [')']) ∧
    (∀ n : Node, '@' ∉ n.name.data →
      nodeLabel n = ['('] ++ n.type.data ++ [')', ' '] ++
        (if n.name.data.length > 100
          then n.name.data.take 100 ++ ['.', '.', '.'] else n.name.data) ++
        [' ', '('] ++ (toString n.memcat).data ++ [')']) := by
  constructor
  · intro n t u hname hu
    simp only [nodeLabel, renderedName]
    rw [hname, rsplitBase_last hu]
  · intro n h
    simp only [nodeLabel, renderedName]
    rw [rsplitBase_no_at h]

/-- Witness for C8 (amended): the node named abc-at-123 renders label
"(t) abc (0)", a plain short name renders unchanged, and a 150-character name
renders its first 100 characters followed by the ellipsis marker. -/
theorem c8_label_amended_witness :
    nodeLabel wNode8 = "(t) abc (0)".data ∧
    nodeLabel wNode8b = "(t) plain (0)".data ∧
    nodeLabel wNode8c =
      ("(t) " ++ String.mk (List.replicate 100 'a') ++ "... (0)").data := by
  refine ⟨?_, ?_, ?_⟩
  · rw [c8_label_amended.1 wNode8 "abc".data "123".data (by decide) (by decide)]
    decide
  · rw [c8_label_amended.2 wNode8b (by decide)]
    decide
  · rw [c8_label_amended.2 wNode8c (by decide)]
    decide

/-- Counterexample to C9 as stated: with a duplicated input edge the
constructed graph holds the edge twice in its edges collection (the list is
stored as given), and after removal of its source node a dangling copy
remains in the edges collection while the source node is gone. -/
theorem c9_edges_set_counterexample :
    (Graph.init [nC9, nD9] [eC9, eC9]).edges.count eC9 = 2 ∧
    (removeSeq (Graph.init [nC9, nD9] [eC9, eC9]) [nC9]).map
      (fun g' => (decide (eC9 ∈ g'.edges), decide (eC9.src ∈ g'.nodes))) =
      some (true, false) := by
  exact ⟨by decide, by rfl⟩

/-- C9 (amended): only the adjacency indices treat edges as members of a set:
each bucket is duplicate-free and holds an edge exactly when the edge list
holds it with the matching endpoint, while the edges collection of the
constructed graph is the input list kept verbatim, duplicates included. -/
theorem c9_edges_set_amended (nodes : List Node) (edges : List Edge) :
    (Graph.init nodes edges).edges = edges ∧
    ∀ m, ((Graph.init nodes edges).forwardE m).Nodup ∧
         ((Graph.init nodes edges).reverseE m).Nodup ∧
         ∀ x, (x ∈ (Graph.init nodes edges).forwardE m ↔ x ∈ edges ∧ x.src = m) ∧
              (x ∈ (Graph.init nodes edges).reverseE m ↔ x ∈ edges ∧ x.dst = m) :=
  ⟨rfl, fun _ => ⟨nodup_buildIdx, nodup_buildIdx, fun _ => ⟨mem_buildIdx, mem_buildIdx⟩⟩⟩

/-- C10: removing a node that has a self-loop succeeds: no remove call fails,
both asserts of the removal helper hold (success of the embedded operation
implies both), and the self-loop is gone from the edges collection and from
every bucket of both indices. -/
theorem c10_self_loop (g : Graph) (n : Node) (e : Edge) (hInv : GInv g)
    (hn : n ∈ g.nodes) (he : e ∈ g.edges) (hs : e.src = n) (hd : e.dst = n) :
    ∃ g', removeNode g n = some g' ∧ e ∉ g'.edges ∧
      ∀ m, e ∉ g'.forwardE m ∧ e ∉ g'.reverseE m := by
  obtain ⟨g', hg', -, hedges, hfwd, hrev⟩ := removeNode_spec g n hInv hn
  refine ⟨g', hg', ?_, ?_⟩
  · rw [hedges, List.mem_filter]
    rintro ⟨-, hp⟩
    rw [decide_eq_true_iff] at hp
    exact hp (Or.inl hs)
  · intro m
    constructor
    · rw [hfwd m]
      by_cases hm : m = n
      · rw [if_pos hm]
        exact List.not_mem_nil e
      · rw [if_neg hm, List.mem_filter]
        rintro ⟨-, hp⟩
        rw [decide_eq_true_iff] at hp
        exact hp hd
    · rw [hrev m]
      by_cases hm : m = n
      · rw [if_pos hm]
        exact List.not_mem_nil e
      · rw [if_neg hm, List.mem_filter]
        rintro ⟨-, hp⟩
        rw [decide_eq_true_iff] at hp
        exact hp hs

/-- Witness for C10 on a one-node graph whose only edge is a self-loop. -/
theorem c10_self_loop_witness :
    (removeNode gW10 nS10).map
      (fun g' => (decide (eLoop10 ∈ g'.edges), decide (eLoop10 ∈ g'.forwardE nS10),
        decide (eLoop10 ∈ g'.reverseE nS10))) = some (false, false, false) := by
  obtain ⟨g', hg', h1, h2⟩ := c10_self_loop gW10 nS10 eLoop10
    (GInv_init _ _ (by decide) (by decide) (by decide))
    (by decide) (by decide) (by decide) (by decide)
  rw [hg']
  simp [h1, (h2 nS10).1, (h2 nS10).2]
